import Mathlib

/-!
Shallow embedding of the Peulicke/csg sources (the sdf module and the
field / color-field / model / renderer / progressive-renderer modules)
over an arbitrary linear ordered field `K`.  External collaborators that
the spec declares out of scope (3D/2D vector arithmetic, the square root,
`2^x`, axis-angle rotation, the grid container, the min-by-key and sum
helpers, the uniform random-integer source) are embedded by their
documented interfaces; the square root, power and rotation functions are
passed as explicit parameters so that every definition stays executable
and can be instantiated at `ℚ` for concrete runs and at `ℝ` with
`Real.sqrt` for the algebraic statements.
-/

namespace CSG

/-- 3D vectors, componentwise arithmetic through the `Prod` instances. -/
abbrev Vec3 (K : Type) := K × K × K

/-- 2D vectors. -/
abbrev Vec2 (K : Type) := K × K

section Vectors

variable {K : Type} [LinearOrderedField K]

/-- `vec3.abs`: componentwise absolute value. -/
def v3abs (p : Vec3 K) : Vec3 K := (|p.1|, |p.2.1|, |p.2.2|)

/-- `vec3.max`: componentwise maximum. -/
def v3max (p q : Vec3 K) : Vec3 K := (max p.1 q.1, max p.2.1 q.2.1, max p.2.2 q.2.2)

/-- `vec3.multiply`: componentwise product. -/
def v3multiply (p q : Vec3 K) : Vec3 K := (p.1 * q.1, p.2.1 * q.2.1, p.2.2 * q.2.2)

/-- `vec3.dot`. -/
def v3dot (p q : Vec3 K) : K := p.1 * q.1 + p.2.1 * q.2.1 + p.2.2 * q.2.2

/-- `vec3.length`, with the square root supplied as a parameter. -/
def v3len (sqrt : K → K) (p : Vec3 K) : K := sqrt (v3dot p p)

/-- `vec2.length`. -/
def v2len (sqrt : K → K) (p : Vec2 K) : K := sqrt (p.1 ^ 2 + p.2 ^ 2)

/-- `vec3.normalize`: the vector scaled by the reciprocal of its length. -/
def v3normalize (sqrt : K → K) (p : Vec3 K) : Vec3 K := (1 / v3len sqrt p) • p

/-- `Math.max(...q)` over the three components of `q`. -/
def maxComp (p : Vec3 K) : K := max p.1 (max p.2.1 p.2.2)

end Vectors

section SdfModule

variable {K : Type} [LinearOrderedField K]

/-- `Sdf`: a scalar field of position (src/unnamed/part_000). -/
abbrev Sdf (K : Type) := Vec3 K → K

/-- `smoothMin(a, b, k)` from the sdf module:
`0.5 * (a + b - Math.sqrt(x * x + (2 * k) ** 2))` with `x = b - a`. -/
def smoothMin (sqrt : K → K) (a b k : K) : K :=
  let x := b - a
  (1 / 2) * (a + b - sqrt (x * x + (2 * k) ^ 2))

/-- `unionPair(a, b, k)`. -/
def unionPair (sqrt : K → K) (a b : Sdf K) (k : K) : Sdf K :=
  fun pos => smoothMin sqrt (a pos) (b pos) k

/-- `union(sdfArray, k)`: `sdfArray.reduce((s, v) => unionPair(s, v, k))`.
JavaScript `reduce` without a seed throws on an empty array, hence the
`Option`: the reduction folds the tail onto the head. -/
def sdfUnion (sqrt : K → K) (sdfArray : List (Sdf K)) (k : K) : Option (Sdf K) :=
  match sdfArray with
  | [] => none
  | s :: rest => some (rest.foldl (fun s v => unionPair sqrt s v k) s)

/-- `intersectionPair(a, b, k)`: `pos => -smoothMin(-a(pos), -b(pos), k)`. -/
def intersectionPair (sqrt : K → K) (a b : Sdf K) (k : K) : Sdf K :=
  fun pos => -smoothMin sqrt (-a pos) (-b pos) k

/-- `intersection(sdfArray, k)`: left fold of `intersectionPair` over the array. -/
def sdfIntersection (sqrt : K → K) (sdfArray : List (Sdf K)) (k : K) : Option (Sdf K) :=
  match sdfArray with
  | [] => none
  | s :: rest => some (rest.foldl (fun s v => intersectionPair sqrt s v k) s)

/-- `subtraction(a, b, k)`: `pos => -smoothMin(-a(pos), b(pos), k)`. -/
def sdfSubtraction (sqrt : K → K) (a b : Sdf K) (k : K) : Sdf K :=
  fun pos => -smoothMin sqrt (-a pos) (b pos) k

/-- `field.translate(v)`: sample the wrapped field at `pos - v`
(src/src field module: `field(vec3.sub(pos, v))`). -/
def fieldTranslate {T : Type} (v : Vec3 K) (field : Vec3 K → T) : Vec3 K → T :=
  fun pos => field (pos - v)

/-- `field.rotate(axis, angle)`: sample the wrapped field at the position
rotated by `-angle` about `axis` (`field(vec3.rotate(pos, axis, -angle))`).
The external axis-angle rotation `vec3.rotate` is a parameter `rot`. -/
def fieldRotate {T : Type} (rot : Vec3 K → Vec3 K → K → Vec3 K)
    (axis : Vec3 K) (angle : K) (field : Vec3 K → T) : Vec3 K → T :=
  fun pos => field (rot pos axis (-angle))

/-- `sdf.scale(v)`: `sdf => pos => sdf(vec3.scale(pos, 1 / v)) * v`. -/
def sdfScale (v : K) (sdf : Sdf K) : Sdf K :=
  fun pos => sdf ((1 / v) • pos) * v

/-- `createUnitSphere()`: `pos => vec3.length(pos) - 1`. -/
def createUnitSphere (sqrt : K → K) : Sdf K :=
  fun pos => v3len sqrt pos - 1

/-- `createSphere(pos, r)`: `translate(pos)(scale(r)(createUnitSphere()))`. -/
def createSphere (sqrt : K → K) (pos : Vec3 K) (r : K) : Sdf K :=
  fieldTranslate pos (sdfScale r (createUnitSphere sqrt))

/-- `createBox(r, roundness)`. -/
def createBox (sqrt : K → K) (r : Vec3 K) (roundness : K) : Sdf K :=
  fun p =>
    let rSmall := r - (roundness, roundness, roundness)
    let q := v3abs p - rSmall
    v3len sqrt (v3max q (0, 0, 0)) + min (maxComp q) 0 - roundness

/-- `createCylinder(r, h, roundness)`:
`d = [vec2.length([pos[0], pos[2]]) - r + roundness, Math.abs(pos[1]) - h / 2]`,
returning `min(max(d[0], d[1]), 0) + vec2.length([max(d[0], 0), max(d[1], 0)]) - roundness`. -/
def createCylinder (sqrt : K → K) (r h roundness : K) : Sdf K :=
  fun pos =>
    let d0 := v2len sqrt (pos.1, pos.2.2) - r + roundness
    let d1 := |pos.2.1| - h / 2
    min (max d0 d1) 0 + v2len sqrt (max d0 0, max d1 0) - roundness

/-- The rounded-cylinder formula asserted by the spec: both the radial
extent and the half-height are shrunk by the roundness before the
rounding offset is applied ("rounded identically to the box").  This is
the claim-side definition used to compare against `createCylinder`. -/
def claimedCylinder (sqrt : K → K) (r h roundness : K) : Sdf K :=
  fun pos =>
    let d0 := v2len sqrt (pos.1, pos.2.2) - (r - roundness)
    let d1 := |pos.2.1| - (h / 2 - roundness)
    min (max d0 d1) 0 + v2len sqrt (max d0 0, max d1 0) - roundness

/-- The sphere-tracing minimum-movement threshold `1e-4`. -/
def minMovement : K := 1 / 10000

/-- The sphere-tracing maximum-movement threshold `1e4`. -/
def maxMovement : K := 10000

/-- Gradient epsilon `1e-10`. -/
def epsGrad : K := 1 / 10000000000

/-- `getDerivative(sdf, pos, dim)`. -/
def getDerivative (sdf : Sdf K) (pos dim : Vec3 K) : K :=
  let dimScaled := (epsGrad : K) • dim
  (sdf (pos + dimScaled) - sdf (pos - dimScaled)) / (2 * epsGrad)

/-- `getGradient(sdf, pos)`. -/
def getGradient (sdf : Sdf K) (pos : Vec3 K) : Vec3 K :=
  (getDerivative sdf pos (1, 0, 0), getDerivative sdf pos (0, 1, 0),
    getDerivative sdf pos (0, 0, 1))

/-- The body of the `for` loop of `trace`, indexed by the remaining
iteration budget.  Each round evaluates `dist = sdf(pos)`, advances
`pos += dir * dist`, returns the advanced position when
`dist < minMovement`, returns no intersection when `dist > maxMovement`,
and otherwise continues; an exhausted budget returns the last position. -/
def traceLoop (sdf : Sdf K) (dir : Vec3 K) : ℕ → Vec3 K → Option (Vec3 K)
  | 0, pos => some pos
  | n + 1, pos =>
    let dist := sdf pos
    let next := pos + dist • dir
    if dist < minMovement then some next
    else if maxMovement < dist then none
    else traceLoop sdf dir n next

/-- `trace(sdf, startPos, dir)` with `maxIterations = 1000`. -/
def trace (sdf : Sdf K) (startPos dir : Vec3 K) : Option (Vec3 K) :=
  traceLoop sdf dir 1000 startPos

/-- The abstract sphere-tracing orbit: the position reached after `n`
uninterrupted iterations of `pos += dir * sdf(pos)`. -/
def tracePos (sdf : Sdf K) (startPos dir : Vec3 K) : ℕ → Vec3 K
  | 0 => startPos
  | n + 1 =>
    let p := tracePos sdf startPos dir n
    p + sdf p • dir

end SdfModule

section TraceLemmas

variable {K : Type} [LinearOrderedField K]

/-- While every visited distance stays inside `[minMovement, maxMovement]`,
the loop just walks the abstract orbit. -/
lemma traceLoop_shift (sdf : Sdf K) (startPos dir : Vec3 K) :
    ∀ n fuel : ℕ, n ≤ fuel →
      (∀ i, i < n → minMovement ≤ sdf (tracePos sdf startPos dir i) ∧
        sdf (tracePos sdf startPos dir i) ≤ maxMovement) →
      traceLoop sdf dir fuel startPos =
        traceLoop sdf dir (fuel - n) (tracePos sdf startPos dir n) := by
  intro n
  induction n with
  | zero => intro fuel _ _; simp [tracePos]
  | succ m ih =>
    intro fuel hle hin
    have hm : m ≤ fuel := Nat.le_of_succ_le hle
    have step := ih fuel hm (fun i hi => hin i (Nat.lt_succ_of_lt hi))
    rw [step]
    obtain ⟨d, hd⟩ : ∃ d, fuel - m = d + 1 := by
      refine ⟨fuel - m - 1, ?_⟩
      omega
    have hcond := hin m (Nat.lt_succ_self m)
    rw [hd]
    have h1 : ¬ sdf (tracePos sdf startPos dir m) < minMovement := not_lt.mpr hcond.1
    have h2 : ¬ (maxMovement : K) < sdf (tracePos sdf startPos dir m) := not_lt.mpr hcond.2
    have hd2 : fuel - (m + 1) = d := by omega
    simp only [traceLoop, h1, h2, if_false, hd2]
    rfl

/-- A first iteration whose distance exceeds the upper threshold (and
not the lower one) reports a miss immediately. -/
lemma traceLoop_first_miss (sdf : Sdf K) (dir pos : Vec3 K) (n : ℕ)
    (h1 : ¬ sdf pos < minMovement) (h2 : maxMovement < sdf pos) :
    traceLoop sdf dir (n + 1) pos = none := by
  simp only [traceLoop]
  rw [if_neg h1, if_pos h2]

/-- C3: `trace` follows the abstract orbit; it reports the advanced
position as a hit as soon as the sampled distance drops below `1e-4`,
reports no intersection as soon as it exceeds `1e4`, and after 1000
in-range iterations returns the last position as if it were a hit. -/
theorem C3_trace (sdf : Sdf K) (startPos dir : Vec3 K) :
    ((∀ i, i < 1000 → minMovement ≤ sdf (tracePos sdf startPos dir i) ∧
        sdf (tracePos sdf startPos dir i) ≤ maxMovement) →
      trace sdf startPos dir = some (tracePos sdf startPos dir 1000))
    ∧ (∀ n, n < 1000 →
      (∀ i, i < n → minMovement ≤ sdf (tracePos sdf startPos dir i) ∧
        sdf (tracePos sdf startPos dir i) ≤ maxMovement) →
      sdf (tracePos sdf startPos dir n) < minMovement →
      trace sdf startPos dir = some (tracePos sdf startPos dir (n + 1)))
    ∧ (∀ n, n < 1000 →
      (∀ i, i < n → minMovement ≤ sdf (tracePos sdf startPos dir i) ∧
        sdf (tracePos sdf startPos dir i) ≤ maxMovement) →
      (maxMovement : K) < sdf (tracePos sdf startPos dir n) →
      trace sdf startPos dir = none) := by
  refine ⟨?_, ?_, ?_⟩
  · intro hin
    have h := traceLoop_shift sdf startPos dir 1000 1000 le_rfl hin
    rw [Nat.sub_self] at h
    rw [trace, h]
    rfl
  · intro n hn hin hmin
    have := traceLoop_shift sdf startPos dir n 1000 (le_of_lt hn) hin
    rw [trace, this]
    obtain ⟨d, hd⟩ : ∃ d, 1000 - n = d + 1 := ⟨1000 - n - 1, by omega⟩
    rw [hd]
    simp only [traceLoop, hmin, if_true]
    rfl
  · intro n hn hin hmax
    have := traceLoop_shift sdf startPos dir n 1000 (le_of_lt hn) hin
    rw [trace, this]
    obtain ⟨d, hd⟩ : ∃ d, 1000 - n = d + 1 := ⟨1000 - n - 1, by omega⟩
    rw [hd]
    have h1 : ¬ sdf (tracePos sdf startPos dir n) < minMovement := by
      have : (minMovement : K) < maxMovement := by
        rw [minMovement, maxMovement]; norm_num
      exact not_lt.mpr (le_of_lt (lt_trans this hmax))
    simp only [traceLoop, h1, if_false, hmax, if_true]

/-- Witness for C3: a constant field of value `20000` exceeds the upper
threshold on the first iteration, so the very first step reports a miss. -/
theorem C3_trace_witness :
    (0 < 1000 ∧ (maxMovement : ℚ) < 20000) ∧
      trace (fun _ => (20000 : ℚ)) (0, 0, 0) (0, 0, 1) = none := by
  refine ⟨⟨by norm_num, by rw [maxMovement]; norm_num⟩, ?_⟩
  exact (C3_trace (fun _ => (20000 : ℚ)) (0, 0, 0) (0, 0, 1)).2.2 0 (by norm_num)
    (fun i hi => absurd hi (Nat.not_lt_zero i))
    (by rw [maxMovement]; norm_num)

end TraceLemmas

section SmoothMinLemmas

/-- C6: `smoothMin(a, b, 0) = min(a, b)`, hence the hard CSG operators
are exact: `union([a, b], 0)` is the pointwise minimum and
`intersection([a, b], 0)` the pointwise maximum. -/
theorem C6_smoothMin_hard_csg (a b : ℝ) (A B : Sdf ℝ) :
    smoothMin Real.sqrt a b 0 = min a b
    ∧ sdfUnion Real.sqrt [A, B] 0 = some (fun p => min (A p) (B p))
    ∧ sdfIntersection Real.sqrt [A, B] 0 = some (fun p => max (A p) (B p)) := by
  have key : ∀ x y : ℝ, smoothMin Real.sqrt x y 0 = min x y := by
    intro x y
    rw [smoothMin]
    have h1 : (y - x) * (y - x) + (2 * (0 : ℝ)) ^ 2 = (y - x) ^ 2 := by ring
    rw [h1, Real.sqrt_sq_eq_abs]
    rcases le_total x y with h | h
    · rw [abs_of_nonneg (by linarith), min_eq_left h]; ring
    · rw [abs_of_nonpos (by linarith), min_eq_right h]; ring
  refine ⟨key a b, ?_, ?_⟩
  · rw [sdfUnion]
    refine congrArg some (funext fun p => ?_)
    simp only [List.foldl]
    exact key (A p) (B p)
  · rw [sdfIntersection]
    refine congrArg some (funext fun p => ?_)
    simp only [List.foldl]
    show -smoothMin Real.sqrt (-A p) (-B p) 0 = max (A p) (B p)
    rw [key (-A p) (-B p), min_neg_neg, neg_neg]

end SmoothMinLemmas

section CylinderLemmas

/-- C4 counterexample: with `r = 1`, `h = 2`, `roundness = 1/2`, at the
on-axis point `(0, h/2, 0) = (0, 1, 0)` the code's cylinder evaluates to
`-1/2` while the spec's box-style formula (half-height shrunk by the
roundness) evaluates to `0`; the two disagree. -/
theorem C4_cylinder_counterexample :
    createCylinder Real.sqrt 1 2 (1 / 2) ((0 : ℝ), 1, 0) = -(1 / 2)
    ∧ claimedCylinder Real.sqrt 1 2 (1 / 2) ((0 : ℝ), 1, 0) = 0
    ∧ createCylinder Real.sqrt 1 2 (1 / 2) ((0 : ℝ), 1, 0) ≠
        claimedCylinder Real.sqrt 1 2 (1 / 2) ((0 : ℝ), 1, 0) := by
  have hz : Real.sqrt ((0 : ℝ) ^ 2 + 0 ^ 2) = 0 := by
    norm_num
  have hhalf : Real.sqrt ((0 : ℝ) ^ 2 + (1 / 2) ^ 2) = 1 / 2 := by
    rw [show (0 : ℝ) ^ 2 + (1 / 2) ^ 2 = (1 / 2) ^ 2 by ring]
    exact Real.sqrt_sq (by norm_num)
  have h4 : Real.sqrt (4 : ℝ) = 2 := by
    rw [show (4 : ℝ) = 2 ^ 2 by norm_num]
    exact Real.sqrt_sq (by norm_num)
  have h1 : createCylinder Real.sqrt 1 2 (1 / 2) ((0 : ℝ), 1, 0) = -(1 / 2) := by
    rw [createCylinder]
    simp only [v2len]
    norm_num [hz]
  have h2 : claimedCylinder Real.sqrt 1 2 (1 / 2) ((0 : ℝ), 1, 0) = 0 := by
    rw [claimedCylinder]
    simp only [v2len]
    norm_num [hz, hhalf, h4]
  exact ⟨h1, h2, by rw [h1, h2]; norm_num⟩

/-- C4 amended: `createCylinder` shrinks only the radial extent by the
roundness; the half-height clamp `|p.y| - h/2` is left unshrunk, and for
`0 < roundness < min(r, h/2)` the on-axis point `(0, h/2, 0)` evaluates
to `-roundness` rather than lying on the surface. -/
theorem C4_cylinder_amended (r h ρ : ℝ) (h1 : 0 < ρ) (h2 : ρ < r) (h3 : ρ < h / 2) :
    (∀ q : Vec3 ℝ, createCylinder Real.sqrt r h ρ q =
      min (max (v2len Real.sqrt (q.1, q.2.2) - (r - ρ)) (|q.2.1| - h / 2)) 0
        + v2len Real.sqrt
            (max (v2len Real.sqrt (q.1, q.2.2) - (r - ρ)) 0, max (|q.2.1| - h / 2) 0)
        - ρ)
    ∧ createCylinder Real.sqrt r h ρ (0, h / 2, 0) = -ρ := by
  have hz : Real.sqrt ((0 : ℝ) ^ 2 + 0 ^ 2) = 0 := by norm_num
  constructor
  · intro q
    rw [createCylinder]
    have : v2len Real.sqrt (q.1, q.2.2) - r + ρ = v2len Real.sqrt (q.1, q.2.2) - (r - ρ) := by
      ring
    rw [this]
  · rw [createCylinder]
    have habs : |h / 2| = h / 2 := abs_of_pos (lt_trans h1 h3)
    simp only [v2len, habs]
    have hd0 : Real.sqrt ((0 : ℝ) ^ 2 + 0 ^ 2) - r + ρ = ρ - r := by rw [hz]; ring
    rw [hd0]
    have hneg : ρ - r < 0 := by linarith
    rw [show h / 2 - h / 2 = (0 : ℝ) by ring]
    rw [max_eq_right (le_of_lt hneg), min_self, max_self, hz]
    ring

/-- Witness for the amended C4 at `r = 1`, `h = 2`, `ρ = 1/2`. -/
theorem C4_cylinder_amended_witness :
    (0 < (1 / 2 : ℝ) ∧ (1 / 2 : ℝ) < 1 ∧ (1 / 2 : ℝ) < 2 / 2) ∧
      createCylinder Real.sqrt 1 2 (1 / 2) (0, 2 / 2, 0) = -(1 / 2) := by
  refine ⟨⟨by norm_num, by norm_num, by norm_num⟩, ?_⟩
  exact (C4_cylinder_amended 1 2 (1 / 2) (by norm_num) (by norm_num) (by norm_num)).2

end CylinderLemmas

section ScaleSphereLemmas

/-- C8: the SDF scale transformation rescales both the sampling
coordinate and the returned distance by the same factor, and as a
consequence `createSphere(center, r)` is the exact sphere distance
`|p - center| - r` for positive radii. -/
theorem C8_scale_sphere (f : Sdf ℝ) (p c : Vec3 ℝ) (v r : ℝ) (_hv : v ≠ 0) (hr : 0 < r) :
    sdfScale v f p = v * f (p.1 / v, p.2.1 / v, p.2.2 / v)
    ∧ createSphere Real.sqrt c r p = v3len Real.sqrt (p - c) - r := by
  constructor
  · rw [sdfScale]
    have hp : (1 / v) • p = (p.1 / v, p.2.1 / v, p.2.2 / v) := by
      show ((1 / v) * p.1, (1 / v) * p.2.1, (1 / v) * p.2.2) =
        (p.1 / v, p.2.1 / v, p.2.2 / v)
      refine Prod.ext ?_ (Prod.ext ?_ ?_) <;> simp <;> ring
    rw [hp, mul_comm]
  · rw [createSphere, fieldTranslate, sdfScale, createUnitSphere]
    have hlen : v3len Real.sqrt ((1 / r) • (p - c)) = (1 / r) * v3len Real.sqrt (p - c) := by
      rw [v3len, v3len]
      have hdot : v3dot ((1 / r) • (p - c)) ((1 / r) • (p - c)) =
          (1 / r) ^ 2 * v3dot (p - c) (p - c) := by
        show ((1 / r) * (p - c).1) * ((1 / r) * (p - c).1) +
            ((1 / r) * (p - c).2.1) * ((1 / r) * (p - c).2.1) +
            ((1 / r) * (p - c).2.2) * ((1 / r) * (p - c).2.2) =
          (1 / r) ^ 2 * ((p - c).1 * (p - c).1 + (p - c).2.1 * (p - c).2.1 +
            (p - c).2.2 * (p - c).2.2)
        ring
      rw [hdot, Real.sqrt_mul (sq_nonneg (1 / r)), Real.sqrt_sq (by positivity)]
    rw [hlen]
    field_simp

/-- Witness for C8 at `v = 2`, `r = 1`, the zero field and origin points. -/
theorem C8_scale_sphere_witness :
    ((2 : ℝ) ≠ 0 ∧ (0 : ℝ) < 1) ∧
      (sdfScale 2 (fun _ => (0 : ℝ)) (3, 0, 0) =
          2 * (fun _ : Vec3 ℝ => (0 : ℝ)) ((3 : ℝ) / 2, 0 / 2, 0 / 2)
        ∧ createSphere Real.sqrt (0, 0, 0) 1 (3, 0, 0) =
            v3len Real.sqrt (((3 : ℝ), (0 : ℝ), (0 : ℝ)) - (0, 0, 0)) - 1) := by
  refine ⟨⟨by norm_num, by norm_num⟩, ?_⟩
  exact C8_scale_sphere (fun _ => (0 : ℝ)) (3, 0, 0) (0, 0, 0) 2 1 (by norm_num) (by norm_num)

end ScaleSphereLemmas

section FieldCoreLemmas

/-- C9: the field-core transformations are exact: `translate(v)` samples
the original field at `p - v`, and `rotate(axis, angle)` samples it at
the position rotated by `-angle` about `axis`. -/
theorem C9_translate_rotate {K : Type} [LinearOrderedField K]
    (rot : Vec3 K → Vec3 K → K → Vec3 K) (f : Vec3 K → Vec3 K) (g : Sdf K)
    (v axis p : Vec3 K) (angle : K) :
    fieldTranslate v f p = f (p - v)
    ∧ fieldRotate rot axis angle f p = f (rot p axis (-angle))
    ∧ fieldTranslate v g p = g (p - v)
    ∧ fieldRotate rot axis angle g p = g (rot p axis (-angle)) :=
  ⟨rfl, rfl, rfl, rfl⟩

end FieldCoreLemmas

section FractalModule

variable {K : Type} [LinearOrderedField K]

/-- A fractal `Copy`: a sub-placement transformation plus a level-of-detail
decay factor. -/
structure Copy (K : Type) where
  transformation : Sdf K → Sdf K
  detailFrac : K

/-- `createFractal(copies)(model, lod, smoothness)`, with the general
recursion rendered through an explicit iteration budget: when the budget
is positive the body is exactly the source's — return `model` when
`lod < 1`, otherwise the left-fold smooth union of `model` with each
copy's transformation applied to the fractal of the same model at
`lod * detailFrac`.  The budget only matters when it is too small, and
the fuel-irrelevance lemma below shows any sufficient budget yields the
same field. -/
def createFractalFuel (sqrt : K → K) (copies : List (Copy K)) :
    ℕ → Sdf K → K → K → Sdf K
  | 0, model, _, _ => model
  | fuel + 1, model, lod, smoothness =>
    if lod < 1 then model
    else
      (copies.map fun c =>
        c.transformation
          (createFractalFuel sqrt copies fuel model (lod * c.detailFrac) smoothness)).foldl
        (fun s v => unionPair sqrt s v smoothness) model

/-- An upper bound for the detail fractions of a copy list (at least 0). -/
def fracBound (copies : List (Copy K)) : K :=
  copies.foldr (fun c acc => max c.detailFrac acc) 0

lemma fracBound_nonneg (copies : List (Copy K)) : 0 ≤ fracBound copies := by
  induction copies with
  | nil => exact le_refl 0
  | cons c rest ih => exact le_trans ih (le_max_right _ _)

lemma fracBound_mem (copies : List (Copy K)) :
    ∀ c ∈ copies, c.detailFrac ≤ fracBound copies := by
  induction copies with
  | nil => intro c hc; exact absurd hc (List.not_mem_nil c)
  | cons a rest ih =>
    intro c hc
    rcases List.mem_cons.mp hc with h | h
    · rw [h]; exact le_max_left _ _
    · exact le_trans (ih c h) (le_max_right _ _)

lemma fracBound_lt_one (copies : List (Copy K))
    (hfrac : ∀ c ∈ copies, c.detailFrac < 1) : fracBound copies < 1 := by
  induction copies with
  | nil => rw [fracBound]; norm_num
  | cons a rest ih =>
    rw [fracBound] at *
    refine max_lt (hfrac a (List.mem_cons_self a rest)) ?_
    exact ih fun c hc => hfrac c (List.mem_cons_of_mem a hc)

lemma fuel_suff_step (q c lod : K) (f : ℕ) (hq0 : 0 ≤ q) (hc : c ≤ q)
    (hlod : 0 ≤ lod) (h : lod * q ^ (f + 1) < 1) : lod * c * q ^ f < 1 :=
  calc lod * c * q ^ f ≤ lod * q * q ^ f :=
        mul_le_mul_of_nonneg_right (mul_le_mul_of_nonneg_left hc hlod) (pow_nonneg hq0 f)
    _ = lod * q ^ (f + 1) := by ring
    _ < 1 := h

lemma fuel_suff_step_same (q c lod : K) (f : ℕ) (hq0 : 0 ≤ q) (hq1 : q < 1)
    (hc : c ≤ q) (hlod : 0 ≤ lod) (h : lod * q ^ (f + 1) < 1) :
    lod * c * q ^ (f + 1) < 1 :=
  calc lod * c * q ^ (f + 1) ≤ lod * q * q ^ (f + 1) :=
        mul_le_mul_of_nonneg_right (mul_le_mul_of_nonneg_left hc hlod) (pow_nonneg hq0 _)
    _ = (lod * q ^ (f + 1)) * q := by ring
    _ ≤ (lod * q ^ (f + 1)) * 1 := by
        refine mul_le_mul_of_nonneg_left hq1.le ?_
        exact mul_nonneg hlod (pow_nonneg hq0 _)
    _ < 1 := by rw [mul_one]; exact h

/-- Any two sufficient budgets produce the same fractal field. -/
lemma createFractalFuel_irrel (sqrt : K → K) (copies : List (Copy K))
    (model : Sdf K) (s q : K) (hq0 : 0 ≤ q)
    (hcb : ∀ c ∈ copies, c.detailFrac ≤ q) :
    ∀ m n : ℕ, ∀ lod : K, lod * q ^ m < 1 → lod * q ^ n < 1 →
      createFractalFuel sqrt copies m model lod s =
        createFractalFuel sqrt copies n model lod s := by
  intro m
  induction m with
  | zero =>
    intro n lod hm _
    rw [pow_zero, mul_one] at hm
    cases n with
    | zero => rfl
    | succ n => simp [createFractalFuel, if_pos hm]
  | succ m ih =>
    intro n lod hm hn
    cases n with
    | zero =>
      rw [pow_zero, mul_one] at hn
      simp [createFractalFuel, if_pos hn]
    | succ n =>
      by_cases hlod : lod < 1
      · simp [createFractalFuel, if_pos hlod]
      · have hlod0 : (0 : K) ≤ lod := le_trans zero_le_one (not_lt.mp hlod)
        simp only [createFractalFuel, if_neg hlod]
        refine congrArg₂ _ rfl ?_
        refine List.map_congr_left fun c hc => ?_
        refine congrArg c.transformation ?_
        exact ih n (lod * c.detailFrac)
          (fuel_suff_step q c.detailFrac lod m hq0 (hcb c hc) hlod0 hm)
          (fuel_suff_step q c.detailFrac lod n hq0 (hcb c hc) hlod0 hn)

/-- C7: with every copy's `detailFrac < 1` the recursion is well founded
(a sufficient budget exists), and for any sufficient budget the fractal
returns the model unchanged when `lod < 1`, and otherwise equals the
smooth union of the model with each copy's transformation of the fractal
of the same model at `lod * detailFrac`, blended with `smoothness`. -/
theorem C7_createFractal {K : Type} [LinearOrderedField K] [Archimedean K]
    (sqrt : K → K) (copies : List (Copy K)) (model : Sdf K) (lod s : K)
    (hfrac : ∀ c ∈ copies, c.detailFrac < 1) :
    (∃ n, lod * fracBound copies ^ n < 1)
    ∧ ∀ fuel, lod * fracBound copies ^ fuel < 1 →
      ((lod < 1 → createFractalFuel sqrt copies fuel model lod s = model)
       ∧ (1 ≤ lod →
          sdfUnion sqrt
            (model :: copies.map fun c =>
              c.transformation
                (createFractalFuel sqrt copies fuel model (lod * c.detailFrac) s)) s
          = some (createFractalFuel sqrt copies fuel model lod s))) := by
  set q := fracBound copies with hq
  have hq0 : 0 ≤ q := fracBound_nonneg copies
  have hq1 : q < 1 := fracBound_lt_one copies hfrac
  have hcb : ∀ c ∈ copies, c.detailFrac ≤ q := fracBound_mem copies
  constructor
  · by_cases hlod : lod < 1
    · exact ⟨0, by rw [pow_zero, mul_one]; exact hlod⟩
    · have hlodpos : (0 : K) < lod := lt_of_lt_of_le zero_lt_one (not_lt.mp hlod)
      obtain ⟨n, hn⟩ := exists_pow_lt_of_lt_one (show (0 : K) < 1 / lod by positivity) hq1
      refine ⟨n, ?_⟩
      have := mul_lt_mul_of_pos_left hn hlodpos
      rwa [mul_one_div, div_self (ne_of_gt hlodpos)] at this
  · intro fuel hfuel
    constructor
    · intro hlod
      cases fuel with
      | zero => rfl
      | succ fuel => simp [createFractalFuel, if_pos hlod]
    · intro hlod
      have hlod' : ¬ lod < 1 := not_lt.mpr hlod
      have hlod0 : (0 : K) ≤ lod := le_trans zero_le_one hlod
      cases fuel with
      | zero =>
        rw [pow_zero, mul_one] at hfuel
        exact absurd hfuel hlod'
      | succ fuel =>
        rw [sdfUnion]
        refine congrArg some ?_
        simp only [createFractalFuel, if_neg hlod']
        refine congrArg₂ _ rfl ?_
        refine List.map_congr_left fun c hc => ?_
        refine congrArg c.transformation ?_
        exact createFractalFuel_irrel sqrt copies model s q hq0 hcb (fuel + 1) fuel
          (lod * c.detailFrac)
          (fuel_suff_step_same q c.detailFrac lod fuel hq0 hq1 (hcb c hc) hlod0 hfuel)
          (fuel_suff_step q c.detailFrac lod fuel hq0 (hcb c hc) hlod0 hfuel)

/-- A test square root on `ℚ` used to instantiate the concrete runs: it
agrees with the real square root on every argument those runs evaluate. -/
def sqrtQ (q : ℚ) : ℚ :=
  if q = 0 then 0
  else if q = 1 then 1
  else if q = 4 then 2
  else if q = 9 then 3
  else 0

/-- Witness for C7: one copy with identity placement and decay `1/2`,
`lod = 2`, budget 2 (`2 * (1/2)^2 < 1`). -/
theorem C7_createFractal_witness :
    ((∀ c ∈ [Copy.mk (id : Sdf ℚ → Sdf ℚ) (1 / 2)], c.detailFrac < 1)
      ∧ (2 : ℚ) * fracBound [Copy.mk (id : Sdf ℚ → Sdf ℚ) (1 / 2)] ^ 2 < 1)
    ∧ ((2 : ℚ) < 1 →
        createFractalFuel sqrtQ [Copy.mk (id : Sdf ℚ → Sdf ℚ) (1 / 2)] 2
          (fun _ => 0) 2 0 = fun _ => 0)
    ∧ ((1 : ℚ) ≤ 2 →
        sdfUnion sqrtQ
          ((fun _ => 0) :: [Copy.mk (id : Sdf ℚ → Sdf ℚ) (1 / 2)].map fun c =>
            c.transformation
              (createFractalFuel sqrtQ [Copy.mk (id : Sdf ℚ → Sdf ℚ) (1 / 2)] 2
                (fun _ => 0) (2 * c.detailFrac) 0)) 0
        = some (createFractalFuel sqrtQ [Copy.mk (id : Sdf ℚ → Sdf ℚ) (1 / 2)] 2
            (fun _ => 0) 2 0)) := by
  have hfrac : ∀ c ∈ [Copy.mk (id : Sdf ℚ → Sdf ℚ) (1 / 2)], c.detailFrac < 1 := by
    intro c hc
    rw [List.mem_singleton] at hc
    rw [hc]
    norm_num
  have hbound : (2 : ℚ) * fracBound [Copy.mk (id : Sdf ℚ → Sdf ℚ) (1 / 2)] ^ 2 < 1 := by
    rw [fracBound]
    norm_num
  exact ⟨⟨hfrac, hbound⟩,
    (C7_createFractal sqrtQ [Copy.mk (id : Sdf ℚ → Sdf ℚ) (1 / 2)]
      (fun _ => 0) 2 0 hfrac).2 2 hbound⟩

end FractalModule

section ModelModule

variable {K : Type} [LinearOrderedField K]

/-- A `Model`: an SDF paired with a color field (model module). -/
structure Model (K : Type) where
  sdf : Sdf K
  colorField : Vec3 K → Vec3 K

/-- One step of the external min-by-key scan: a later element replaces
the current best only when its key is strictly smaller. -/
def minScanStep {A : Type} (f : A → K) (best v : A) : A :=
  if f v < f best then v else best

/-- The external `getMinObj` helper (an out-of-scope collaborator,
embedded by its documented interface): minimum by key, ties resolved to
the first occurrence under the scan, no result on empty input. -/
def getMinObj {A : Type} (l : List A) (f : A → K) : Option A :=
  match l with
  | [] => none
  | a :: rest => some (rest.foldl (minScanStep f) a)

/-- `reduce((s, v) => vec3.add(s, v))`: the tail folded onto the head.
The empty case, which would throw in the source, is never reached at the
use sites and carries the junk value 0. -/
def reduceAdd (l : List (Vec3 K)) : Vec3 K :=
  match l with
  | [] => 0
  | c :: rest => rest.foldl (fun s v => s + v) c

/-- `mergeColorFields(modelArray, k)` (model module): per sample point,
take every model's absolute SDF value as its distance vote; at `k = 0`
return the color of the model selected by the min-by-key scan over the
indexed votes (index defaulting to 0), otherwise weight each model by
`2^(-dist/k)` — the exponential `Math.pow(2, ·)` is the external
parameter `pow2` — scale each color by its weight and the reduced color
sum by the reciprocal of the summed weights. -/
def mergeColorFields (pow2 : K → K) (modelArray : List (Model K)) (k : K) :
    Option (Vec3 K → Vec3 K) :=
  match modelArray with
  | [] => none
  | m0 :: ms =>
    some fun pos =>
      let dists := (m0 :: ms).map fun m => |m.sdf pos|
      if k = 0 then
        let index :=
          ((getMinObj (dists.enum.map fun di => (di.2, di.1)) Prod.fst).map Prod.snd).getD 0
        ((m0 :: ms).getD index m0).colorField pos
      else
        let weights := dists.map fun d => pow2 (-d / k)
        let colorArray := (m0 :: ms).enum.map fun im =>
          (weights.getD im.1 0) • im.2.colorField pos
        (1 / weights.sum) • reduceAdd colorArray

/-- The min-by-key scan returns an element that attains the minimum key
and is preceded only by elements with strictly larger keys. -/
lemma foldl_minScan_spec {A : Type} (f : A → K) (l : List A) :
    ∀ a : A,
      ∃ l1 l2,
        a :: l = l1 ++ l.foldl (minScanStep f) a :: l2
        ∧ (∀ v ∈ l1, f (l.foldl (minScanStep f) a) < f v)
        ∧ ∀ v ∈ a :: l, f (l.foldl (minScanStep f) a) ≤ f v := by
  induction l with
  | nil =>
    intro a
    refine ⟨[], [], rfl, fun v hv => absurd hv (List.not_mem_nil v), ?_⟩
    intro v hv
    rw [List.mem_singleton] at hv
    rw [hv, List.foldl_nil]
  | cons w l' ih =>
    intro a
    rw [List.foldl_cons]
    by_cases hw : f w < f a
    · rw [show minScanStep f a w = w from if_pos hw]
      obtain ⟨l1, l2, hdec, hstrict, hmin⟩ := ih w
      refine ⟨a :: l1, l2, ?_, ?_, ?_⟩
      · rw [List.cons_append, ← hdec]
      · intro v hv
        rcases List.mem_cons.mp hv with h | h
        · rw [h]
          exact lt_of_le_of_lt (hmin w (List.mem_cons_self w l')) hw
        · exact hstrict v h
      · intro v hv
        rcases List.mem_cons.mp hv with h | h
        · rw [h]
          exact le_of_lt (lt_of_le_of_lt (hmin w (List.mem_cons_self w l')) hw)
        · exact hmin v h
    · rw [show minScanStep f a w = a from if_neg hw]
      have haw : f a ≤ f w := not_lt.mp hw
      obtain ⟨l1, l2, hdec, hstrict, hmin⟩ := ih a
      rcases l1 with _ | ⟨b, t⟩
      · rw [List.nil_append] at hdec
        have hra : l'.foldl (minScanStep f) a = a := (List.cons.injEq _ _ _ _ ▸ hdec).1.symm
        have hl2 : l' = l2 := (List.cons.injEq _ _ _ _ ▸ hdec).2
        refine ⟨[], w :: l2, ?_, fun v hv => absurd hv (List.not_mem_nil v), ?_⟩
        · rw [List.nil_append, hra, hl2]
        · intro v hv
          rcases List.mem_cons.mp hv with h | h
          · rw [h, hra]
          · rcases List.mem_cons.mp h with h2 | h2
            · rw [h2, hra]; exact haw
            · exact hmin v (List.mem_cons_of_mem a h2)
      · rw [List.cons_append] at hdec
        have hab : a = b := (List.cons.injEq _ _ _ _ ▸ hdec).1
        have hl' : l' = t ++ l'.foldl (minScanStep f) a :: l2 :=
          (List.cons.injEq _ _ _ _ ▸ hdec).2
        refine ⟨a :: w :: t, l2, ?_, ?_, ?_⟩
        · rw [List.cons_append, List.cons_append, ← hl']
        · intro v hv
          have hfa : f (l'.foldl (minScanStep f) a) < f a := by
            have h := hstrict b (List.mem_cons_self b t)
            rw [← hab] at h
            exact h
          rcases List.mem_cons.mp hv with h | h
          · rw [h]; exact hfa
          · rcases List.mem_cons.mp h with h2 | h2
            · rw [h2]; exact lt_of_lt_of_le hfa haw
            · exact hstrict v (List.mem_cons_of_mem b h2)
        · intro v hv
          rcases List.mem_cons.mp hv with h | h
          · rw [h]; exact hmin a (List.mem_cons_self a l')
          · rcases List.mem_cons.mp h with h2 | h2
            · rw [h2]
              exact le_trans (hmin a (List.mem_cons_self a l')) haw
            · exact hmin v (List.mem_cons_of_mem a h2)

/-- The index computed by the `k = 0` branch of `mergeColorFields` is the
first index attaining the minimum distance vote. -/
lemma mergeIndex_spec (dl : List K) (hne : dl ≠ []) :
    ∃ i, ∃ hi : i < dl.length,
      ((getMinObj (dl.enum.map fun di => (di.2, di.1)) Prod.fst).map Prod.snd).getD 0 = i
      ∧ (∀ j, ∀ hj : j < dl.length, dl[i] ≤ dl[j])
      ∧ (∀ j, ∀ hj : j < dl.length, j < i → dl[i] < dl[j]) := by
  rcases dl with _ | ⟨d0, ds⟩
  · exact absurd rfl hne
  have hP : (d0 :: ds).enum.map (fun di : ℕ × K => (di.2, di.1)) =
      (d0, 0) :: (ds.enumFrom 1).map (fun di : ℕ × K => (di.2, di.1)) := by
    rw [List.enum_cons, List.map_cons]
  obtain ⟨l1, l2, hdec, hstrict, hmin⟩ :=
    foldl_minScan_spec (Prod.fst : K × ℕ → K)
      ((ds.enumFrom 1).map (fun di : ℕ × K => (di.2, di.1))) (d0, 0)
  set r := ((ds.enumFrom 1).map (fun di : ℕ × K => (di.2, di.1))).foldl
    (minScanStep (Prod.fst : K × ℕ → K)) (d0, 0) with hrdef
  have hgm : getMinObj ((d0 :: ds).enum.map fun di => (di.2, di.1)) (Prod.fst : K × ℕ → K)
      = some r := by
    rw [hP]; rfl
  have hPdec : (d0 :: ds).enum.map (fun di : ℕ × K => (di.2, di.1)) = l1 ++ r :: l2 := by
    rw [hP]; exact hdec
  have hPlen : ((d0 :: ds).enum.map (fun di : ℕ × K => (di.2, di.1))).length
      = (d0 :: ds).length := by simp
  have hiP : l1.length < ((d0 :: ds).enum.map (fun di : ℕ × K => (di.2, di.1))).length := by
    rw [hPdec]
    simp
  have hi : l1.length < (d0 :: ds).length := hPlen ▸ hiP
  have hPget : ∀ j, ∀ hjP : j < ((d0 :: ds).enum.map (fun di : ℕ × K => (di.2, di.1))).length,
      ∀ hj : j < (d0 :: ds).length,
      ((d0 :: ds).enum.map (fun di : ℕ × K => (di.2, di.1)))[j] = ((d0 :: ds)[j], j) := by
    intro j hjP hj
    simp
  have hr : r = ((d0 :: ds)[l1.length], l1.length) := by
    have h1 : ((d0 :: ds).enum.map (fun di : ℕ × K => (di.2, di.1)))[l1.length] = r := by
      simp only [hPdec]
      rw [List.getElem_append_right (le_refl l1.length)]
      simp
    rw [← h1]
    exact hPget l1.length hiP hi
  refine ⟨l1.length, hi, ?_, ?_, ?_⟩
  · rw [hgm]
    simp [hr]
  · intro j hj
    have hjP : j < ((d0 :: ds).enum.map (fun di : ℕ × K => (di.2, di.1))).length := by
      rw [hPlen]; exact hj
    have hmem : (((d0 :: ds).enum.map (fun di : ℕ × K => (di.2, di.1)))[j]) ∈
        (d0, 0) :: (ds.enumFrom 1).map (fun di : ℕ × K => (di.2, di.1)) := by
      rw [← hP]
      exact List.getElem_mem hjP
    have h := hmin _ hmem
    rw [hPget j hjP hj, hr] at h
    simpa using h
  · intro j hj hji
    have hjP : j < ((d0 :: ds).enum.map (fun di : ℕ × K => (di.2, di.1))).length := by
      rw [hPlen]; exact hj
    have hji1 : j < l1.length := hji
    have hmem : (((d0 :: ds).enum.map (fun di : ℕ × K => (di.2, di.1)))[j]) ∈ l1 := by
      have h2 : ((d0 :: ds).enum.map (fun di : ℕ × K => (di.2, di.1)))[j] = l1[j] := by
        simp only [hPdec]
        exact List.getElem_append_left hji1
      rw [h2]
      exact List.getElem_mem hji1
    have h := hstrict _ hmem
    rw [hPget j hjP hj, hr] at h
    simpa using h

lemma foldl_add_eq_sum (l : List (Vec3 K)) :
    ∀ c : Vec3 K, l.foldl (fun s v => s + v) c = c + l.sum := by
  induction l with
  | nil => intro c; simp
  | cons v l' ih =>
    intro c
    rw [List.foldl_cons, ih (c + v), List.sum_cons, add_assoc]

lemma reduceAdd_eq_sum (l : List (Vec3 K)) : reduceAdd l = l.sum := by
  cases l with
  | nil => rfl
  | cons c rest => rw [reduceAdd, foldl_add_eq_sum, List.sum_cons]

lemma enumFrom_map_getD_smul {A : Type} (g : A → K) (cf : A → Vec3 K) :
    ∀ (L : List A) (n : ℕ) (W : List K),
      (∀ j, ∀ hj : j < L.length, W.getD (n + j) 0 = g L[j]) →
      (L.enumFrom n).map (fun im => W.getD im.1 0 • cf im.2) = L.map fun x => g x • cf x := by
  intro L
  induction L with
  | nil => intro n W _; rfl
  | cons a L' ih =>
    intro n W hW
    rw [List.enumFrom_cons, List.map_cons, List.map_cons]
    have h0 : W.getD n 0 = g a := by
      have := hW 0 (by simp)
      simpa using this
    rw [h0]
    congr 1
    refine ih (n + 1) W ?_
    intro j hj
    have := hW (j + 1) (by simpa using Nat.succ_lt_succ hj)
    rw [show n + 1 + j = n + (j + 1) by omega]
    simpa using this

/-- C5: the merged color field of a non-empty model list: at blend
radius 0 it returns the color of the first model (in list order)
attaining the minimal absolute SDF value, and at radius `k > 0` it is
the `2^(-dist/k)`-weighted color sum normalized by the sum of weights. -/
theorem C5_mergeColorFields {K : Type} [LinearOrderedField K] (pow2 : K → K)
    (m0 : Model K) (ms : List (Model K)) (k : K) (pos : Vec3 K) :
    ∃ cf, mergeColorFields pow2 (m0 :: ms) k = some cf
      ∧ (k = 0 →
          ∃ i, ∃ hi : i < (m0 :: ms).length,
            cf pos = ((m0 :: ms)[i]).colorField pos
            ∧ (∀ j, ∀ hj : j < (m0 :: ms).length,
                |((m0 :: ms)[i]).sdf pos| ≤ |((m0 :: ms)[j]).sdf pos|)
            ∧ (∀ j, ∀ hj : j < (m0 :: ms).length, j < i →
                |((m0 :: ms)[i]).sdf pos| < |((m0 :: ms)[j]).sdf pos|))
      ∧ (0 < k →
          cf pos =
            (1 / ((m0 :: ms).map fun m => pow2 (-|m.sdf pos| / k)).sum) •
              ((m0 :: ms).map fun m => pow2 (-|m.sdf pos| / k) • m.colorField pos).sum) := by
  refine ⟨_, rfl, ?_, ?_⟩
  · intro hk
    simp only [if_pos hk]
    obtain ⟨i, hi, hidx, hmin, hstrict⟩ :=
      mergeIndex_spec ((m0 :: ms).map fun m => |m.sdf pos|) (by simp)
    have hlen : ((m0 :: ms).map fun m => |m.sdf pos|).length = (m0 :: ms).length := by
      simp
    have hunif : i < (m0 :: ms).length := hlen ▸ hi
    have hgetd : ∀ j, ∀ hj2 : j < ((m0 :: ms).map fun m => |m.sdf pos|).length,
        ∀ hj : j < (m0 :: ms).length,
        ((m0 :: ms).map fun m => |m.sdf pos|)[j] = |((m0 :: ms)[j]).sdf pos| := by
      intro j hj2 hj
      simp only [List.getElem_map]
    refine ⟨i, hunif, ?_, ?_, ?_⟩
    · rw [hidx]
      rw [List.getD_eq_getElem (m0 :: ms) m0 hunif]
    · intro j hj
      have hj2 : j < ((m0 :: ms).map fun m => |m.sdf pos|).length := by
        rw [hlen]; exact hj
      have h := hmin j hj2
      rw [hgetd i hi hunif, hgetd j hj2 hj] at h
      exact h
    · intro j hj hji
      have hj2 : j < ((m0 :: ms).map fun m => |m.sdf pos|).length := by
        rw [hlen]; exact hj
      have h := hstrict j hj2 hji
      rw [hgetd i hi hunif, hgetd j hj2 hj] at h
      exact h
  · intro hk
    have hk0 : ¬ k = 0 := ne_of_gt hk
    simp only [if_neg hk0]
    have hweights : ((m0 :: ms).map fun m => |m.sdf pos|).map (fun d => pow2 (-d / k))
        = (m0 :: ms).map fun m => pow2 (-|m.sdf pos| / k) := by
      rw [List.map_map]
      rfl
    rw [hweights]
    have hbridge : ((m0 :: ms).enumFrom 0).map
        (fun im => ((m0 :: ms).map fun m => pow2 (-|m.sdf pos| / k)).getD im.1 0
          • im.2.colorField pos)
        = (m0 :: ms).map fun m => pow2 (-|m.sdf pos| / k) • m.colorField pos := by
      refine enumFrom_map_getD_smul (fun m => pow2 (-|m.sdf pos| / k))
        (fun m => m.colorField pos) (m0 :: ms) 0
        ((m0 :: ms).map fun m => pow2 (-|m.sdf pos| / k)) ?_
      intro j hj
      rw [Nat.zero_add]
      rw [List.getD_eq_getElem _ 0 (by simpa using hj)]
      simp only [List.getElem_map]
    have henum : (m0 :: ms).enum = (m0 :: ms).enumFrom 0 := rfl
    rw [henum, hbridge, reduceAdd_eq_sum]

/-- Witness for C5 at `ℚ`: two constant models, both branches. -/
theorem C5_mergeColorFields_witness :
    ∃ cf, mergeColorFields (fun x => 1 + x)
        [Model.mk (fun _ => (3 : ℚ)) fun _ => (1, 0, 0),
          Model.mk (fun _ => 1) fun _ => (0, 1, 0)] (0 : ℚ) = some cf
      ∧ ((0 : ℚ) = 0 →
          ∃ i, ∃ hi : i < ([Model.mk (fun _ => (3 : ℚ)) fun _ => (1, 0, 0),
              Model.mk (fun _ => 1) fun _ => (0, 1, 0)]).length,
            cf 0 = (([Model.mk (fun _ => (3 : ℚ)) fun _ => (1, 0, 0),
                Model.mk (fun _ => 1) fun _ => (0, 1, 0)])[i]).colorField 0
            ∧ (∀ j, ∀ hj : j < ([Model.mk (fun _ => (3 : ℚ)) fun _ => (1, 0, 0),
                Model.mk (fun _ => 1) fun _ => (0, 1, 0)]).length,
                |(([Model.mk (fun _ => (3 : ℚ)) fun _ => (1, 0, 0),
                  Model.mk (fun _ => 1) fun _ => (0, 1, 0)])[i]).sdf 0|
                  ≤ |(([Model.mk (fun _ => (3 : ℚ)) fun _ => (1, 0, 0),
                    Model.mk (fun _ => 1) fun _ => (0, 1, 0)])[j]).sdf 0|)
            ∧ (∀ j, ∀ hj : j < ([Model.mk (fun _ => (3 : ℚ)) fun _ => (1, 0, 0),
                Model.mk (fun _ => 1) fun _ => (0, 1, 0)]).length, j < i →
                |(([Model.mk (fun _ => (3 : ℚ)) fun _ => (1, 0, 0),
                  Model.mk (fun _ => 1) fun _ => (0, 1, 0)])[i]).sdf 0|
                  < |(([Model.mk (fun _ => (3 : ℚ)) fun _ => (1, 0, 0),
                    Model.mk (fun _ => 1) fun _ => (0, 1, 0)])[j]).sdf 0|))
      ∧ ((0 : ℚ) < 0 →
          cf 0 =
            (1 / (([Model.mk (fun _ => (3 : ℚ)) fun _ => (1, 0, 0),
              Model.mk (fun _ => 1) fun _ => (0, 1, 0)]).map fun m =>
                (fun x => 1 + x) (-|m.sdf 0| / 0)).sum) •
              (([Model.mk (fun _ => (3 : ℚ)) fun _ => (1, 0, 0),
                Model.mk (fun _ => 1) fun _ => (0, 1, 0)]).map fun m =>
                  (fun x => 1 + x) (-|m.sdf 0| / 0) • m.colorField 0).sum) :=
  C5_mergeColorFields (fun x => 1 + x)
    (Model.mk (fun _ => 3) fun _ => (1, 0, 0))
    [Model.mk (fun _ => 1) fun _ => (0, 1, 0)] 0 0

end ModelModule

section RendererModule

variable {K : Type} [LinearOrderedField K]

/-- A pixel: an RGB color and a coverage alpha. -/
structure Pixel (K : Type) where
  color : Vec3 K
  alpha : K
deriving DecidableEq

/-- `getTransparent()`: the fully transparent pixel. -/
def getTransparent : Pixel K := ⟨(0, 0, 0), 0⟩

/-- A light source: an optional direction (absent = ambient) and a color. -/
structure LightSource (K : Type) where
  dir : Option (Vec3 K)
  color : Vec3 K

/-- `getPixel(model, startPos, dir, lightSources)` (renderer): trace the
primary ray; a miss is transparent; on a hit accumulate, per light, the
color-field value times the light color times the reflection factor
(`dot(normal, dir)` for directional lights, 1 for ambient), skipping a
directional light entirely when a secondary ray offset by `1e-3` toward
it hits anything. -/
def getPixel (model : Model K) (startPos dir : Vec3 K)
    (lightSources : List (LightSource K)) : Pixel K :=
  match trace model.sdf startPos dir with
  | none => getTransparent
  | some pos =>
    let normal := getGradient model.sdf pos
    let color := lightSources.foldl
      (fun color ls =>
        match ls.dir with
        | some d =>
          match trace model.sdf (pos + ((1 : K) / 1000) • d) d with
          | some _ => color
          | none => color + v3dot normal d • v3multiply (model.colorField pos) ls.color
        | none => color + (1 : K) • v3multiply (model.colorField pos) ls.color)
      (0, 0, 0)
    ⟨color, 1⟩

/-- A ray that misses shades to the transparent pixel. -/
lemma getPixel_miss (model : Model K) (startPos dir : Vec3 K)
    (lightSources : List (LightSource K)) (h : trace model.sdf startPos dir = none) :
    getPixel model startPos dir lightSources = getTransparent := by
  unfold getPixel
  rw [h]

/-- `pixelCoordsToScreenCoords(resolution)(coords)`:
`((coords + [0.5, 0.5]) - 0.5 * resolution) / resolution[1]`. -/
def pixelCoordsToScreenCoords (resolution : ℕ × ℕ) (coords : Vec2 K) : Vec2 K :=
  (1 / (resolution.2 : K)) •
    (coords + (1 / 2, 1 / 2) - ((1 : K) / 2) • ((resolution.1 : K), (resolution.2 : K)))

/-- The two multisample pattern names; the type is closed, so the
configuration error thrown by the source on any other name has no
representative input. -/
inductive MSPattern where
  | one
  | eight

/-- `getMultisamplePattern`: one centered sample, or the 8-sample
rotated-grid offsets scaled by `1/16`. -/
def getMultisamplePattern : MSPattern → List (Vec2 K)
  | MSPattern.one => [(0, 0)]
  | MSPattern.eight =>
    ([(1, -3), (-1, 3), (5, 1), (-3, -5), (-5, 5), (-7, -1), (3, 7), (7, -7)] :
      List (Vec2 K)).map fun p => ((1 : K) / 16) • p

/-- The accumulator loop of `avgPixel`: summed `alpha • color` and summed
alpha over the sample list. -/
def avgAcc (pixels : List (Pixel K)) : Vec3 K × K :=
  pixels.foldl (fun s p => (s.1 + p.alpha • p.color, s.2 + p.alpha)) ((0, 0, 0), 0)

/-- The divisor used by `avgPixel` for the color: the sum of the sample
alphas, with no guard against zero. -/
def alphaSum (pixels : List (Pixel K)) : K := (avgAcc pixels).2

/-- `avgPixel(pixels)`: the alpha-weighted color sum scaled by the
reciprocal of the alpha sum, and the mean alpha. -/
def avgPixel (pixels : List (Pixel K)) : Pixel K :=
  ⟨(1 / alphaSum pixels) • (avgAcc pixels).1, alphaSum pixels / (pixels.length : K)⟩

/-- The per-pixel shader interface. -/
abbrev RenderPixel (K : Type) :=
  Model K → Vec2 K → List (LightSource K) → Pixel K

/-- `perspectiveRenderPixel`: ray from the origin through the normalized
screen direction. -/
def perspectiveRenderPixel (sqrt : K → K) : RenderPixel K := fun model screenCoords lights =>
  getPixel model (0, 0, 0)
    (v3normalize sqrt (screenCoords.1, -screenCoords.2, -1)) lights

/-- `orthographicRenderPixel`: parallel rays along `(0, 0, -1)`. -/
def orthographicRenderPixel : RenderPixel K := fun model screenCoords lights =>
  getPixel model (screenCoords.1, -screenCoords.2, 0) (0, 0, -1) lights

/-- The light normalization performed once per render call. -/
def normalizeLights (sqrt : K → K) (ls : List (LightSource K)) : List (LightSource K) :=
  ls.map fun l => ⟨l.dir.map (v3normalize sqrt), l.color⟩

/-- A 2D grid backed by a total cell function plus its bounds (the
external grid container, embedded by its interface). -/
structure Grid (B : Type) where
  rows : ℕ
  cols : ℕ
  cell : ℤ × ℤ → B

/-- `grid.create(resolution, f)`. -/
def Grid.create {B : Type} (resolution : ℕ × ℕ) (f : ℤ × ℤ → B) : Grid B :=
  ⟨resolution.1, resolution.2, f⟩

/-- `grid.getCell(g, p, () => undefined)`: the stored cell in bounds,
nothing otherwise. -/
def Grid.getCell? {B : Type} (g : Grid B) (p : ℤ × ℤ) : Option B :=
  if 0 ≤ p.1 ∧ p.1 < (g.rows : ℤ) ∧ 0 ≤ p.2 ∧ p.2 < (g.cols : ℤ) then some (g.cell p)
  else none

/-- `grid.setCell(g, p, v)` as a functional update. -/
def Grid.setCell {B : Type} (g : Grid B) (p : ℤ × ℤ) (v : B) : Grid B :=
  ⟨g.rows, g.cols, fun q => if q = p then v else g.cell q⟩

/-- The multisample list built for one pixel inside `renderImage` /
`renderPartialImage`: one shader call per pattern offset. -/
def renderSamples (renderPixel : RenderPixel K) (model : Model K)
    (lightsNormalized : List (LightSource K)) (resolution : ℕ × ℕ)
    (pattern : MSPattern) (pos : ℤ × ℤ) : List (Pixel K) :=
  (getMultisamplePattern pattern).map fun offset =>
    renderPixel model
      (pixelCoordsToScreenCoords resolution (((pos.1 : K), (pos.2 : K)) + offset))
      lightsNormalized

/-- `renderImage(renderPixel)(model, lightSources, resolution, pattern)`:
normalize the lights once, then fill the grid with the multisample
average at every coordinate. -/
def renderImage (sqrt : K → K) (renderPixel : RenderPixel K) (model : Model K)
    (lightSources : List (LightSource K)) (resolution : ℕ × ℕ) (pattern : MSPattern) :
    Grid (Pixel K) :=
  Grid.create resolution fun pos =>
    avgPixel
      (renderSamples renderPixel model (normalizeLights sqrt lightSources)
        resolution pattern pos)

/-- A model whose constant distance `20000` exceeds `maxMovement` at the
first step, so every primary ray misses. -/
def missModel : Model ℚ := ⟨fun _ => 20000, fun _ => (1, 0, 0)⟩

lemma avgAcc_of_all_transparent {K : Type} [LinearOrderedField K] :
    ∀ (l : List (Pixel K)) (acc : Vec3 K × K), (∀ p ∈ l, p.alpha = 0) →
      (l.foldl (fun s p => (s.1 + p.alpha • p.color, s.2 + p.alpha)) acc).2 = acc.2 := by
  intro l
  induction l with
  | nil => intro acc _; rfl
  | cons p l' ih =>
    intro acc hl
    rw [List.foldl_cons, ih _ fun q hq => hl q (List.mem_cons_of_mem p hq)]
    simp [hl p (List.mem_cons_self p l')]

lemma orthographic_miss {K : Type} [LinearOrderedField K] (model : Model K)
    (screenCoords : Vec2 K) (lights : List (LightSource K))
    (h : ∀ s d : Vec3 K, trace model.sdf s d = none) :
    orthographicRenderPixel model screenCoords lights = getTransparent :=
  getPixel_miss model _ _ lights (h _ _)

/-- C10: when every multisample is transparent, the divisor of
`avgPixel`'s color division — the unguarded alpha sum — is exactly 0
while the output alpha is 0, and the case is reachable from the public
`renderImage` interface because `getPixel` returns a transparent pixel
for every ray that misses (here: a constant-distance model that every
ray misses, rendered orthographically at resolution 1x1). -/
theorem C10_avgPixel_zero_divisor (ps : List (Pixel ℚ)) (h : ∀ p ∈ ps, p.alpha = 0) :
    alphaSum ps = 0
    ∧ (avgPixel ps).alpha = 0
    ∧ (avgPixel ps).color = (1 / (0 : ℚ)) • (avgAcc ps).1
    ∧ (∀ p ∈ renderSamples (orthographicRenderPixel) missModel [] (1, 1)
        MSPattern.one (0, 0), p.alpha = 0)
    ∧ (renderImage sqrtQ (orthographicRenderPixel) missModel [] (1, 1)
        MSPattern.one).cell (0, 0)
      = avgPixel (renderSamples (orthographicRenderPixel) missModel []
          (1, 1) MSPattern.one (0, 0))
    ∧ alphaSum (renderSamples (orthographicRenderPixel) missModel [] (1, 1)
        MSPattern.one (0, 0)) = 0 := by
  have hz : alphaSum ps = 0 := avgAcc_of_all_transparent ps ((0, 0, 0), 0) h
  have htr : ∀ s d : Vec3 ℚ, trace missModel.sdf s d = none := by
    intro s d
    rw [trace]
    exact traceLoop_first_miss missModel.sdf d s 999
      (by norm_num [missModel, minMovement]) (by norm_num [missModel, maxMovement])
  have hsamp : renderSamples (orthographicRenderPixel) missModel [] (1, 1)
      MSPattern.one (0, 0) = [getTransparent] := by
    rw [renderSamples]
    simp only [getMultisamplePattern, List.map_cons, List.map_nil]
    rw [orthographic_miss missModel _ _ htr]
  refine ⟨hz, ?_, ?_, ?_, ?_, ?_⟩
  · show alphaSum ps / ((ps.length : ℚ)) = 0
    rw [hz, zero_div]
  · show (1 / alphaSum ps) • (avgAcc ps).1 = (1 / (0 : ℚ)) • (avgAcc ps).1
    rw [hz]
  · rw [hsamp]
    intro p hp
    rw [List.mem_singleton] at hp
    rw [hp]
    rfl
  · show avgPixel (renderSamples (orthographicRenderPixel) missModel
        (normalizeLights sqrtQ []) (1, 1) MSPattern.one (0, 0))
      = avgPixel (renderSamples (orthographicRenderPixel) missModel []
        (1, 1) MSPattern.one (0, 0))
    rw [show normalizeLights sqrtQ ([] : List (LightSource ℚ)) = [] from rfl]
  · rw [hsamp]
    simp [alphaSum, avgAcc, getTransparent]

/-- Witness for C10 on a one-sample list with a nonzero color and zero
alpha. -/
theorem C10_avgPixel_zero_divisor_witness :
    (∀ p ∈ [Pixel.mk ((5 : ℚ), 5, 5) 0], p.alpha = 0)
    ∧ alphaSum [Pixel.mk ((5 : ℚ), 5, 5) 0] = 0
    ∧ (avgPixel [Pixel.mk ((5 : ℚ), 5, 5) 0]).alpha = 0 := by
  have h : ∀ p ∈ [Pixel.mk ((5 : ℚ), 5, 5) 0], p.alpha = 0 := by decide
  have hmain := C10_avgPixel_zero_divisor [Pixel.mk ((5 : ℚ), 5, 5) 0] h
  exact ⟨h, hmain.1, hmain.2.1⟩

end RendererModule

section ProgressiveCore

variable {K : Type} [LinearOrderedCommRing K]

/-- A cell record of the auxiliary grid: the best known color together
with the distance to the nearest actually-rendered pixel; `none` stands
for the initial `Infinity`. -/
structure DistRec (K : Type) where
  pixel : Pixel K
  dist : Option K
deriving DecidableEq

/-- A FIFO queue entry of `updateDists`. -/
structure QEntry (K : Type) where
  pixel : Pixel K
  pos : ℤ × ℤ
  dist : K

/-- The eight relative grid offsets of `vec2.gridNeighbors`. -/
def offsets8 : List (ℤ × ℤ) :=
  [(-1, -1), (-1, 0), (-1, 1), (0, -1), (0, 1), (1, -1), (1, 0), (1, 1)]

/-- The four edge-adjacent relative offsets of `vec2.gridEdges`. -/
def offsets4 : List (ℤ × ℤ) := [(-1, 0), (1, 0), (0, -1), (0, 1)]

/-- `vec2.gridNeighbors(pos)`: the eight neighbors with their offsets. -/
def gridNeighbors (pos : ℤ × ℤ) : List ((ℤ × ℤ) × (ℤ × ℤ)) :=
  offsets8.map fun o => (pos + o, o)

/-- `vec2.gridEdges(pos)`: the four edge-adjacent neighbors. -/
def gridEdges (pos : ℤ × ℤ) : List (ℤ × ℤ) := offsets4.map fun o => pos + o

/-- The length of a relative grid offset (`vec2.length(n)`). -/
def v2lenZ (sqrt : K → K) (n : ℤ × ℤ) : K := sqrt ((n.1 : K) ^ 2 + (n.2 : K) ^ 2)

/-- `stored <= candidate` where the stored estimate may be `Infinity`
(`none`): `Infinity <= d` is false for every finite `d`. -/
def infLEB (a : Option K) (b : K) : Bool :=
  match a with
  | none => false
  | some x => decide (x ≤ b)

/-- The `while` loop of `updateDists`, indexed by an iteration budget
(`none` on exhaustion).  Each round pops the queue head; out-of-grid
entries and entries whose cell already stores a distance `<=` the
candidate are discarded; otherwise the cell is overwritten and each
in-grid neighbor is enqueued with the candidate plus the edge length —
but only when the *old* distance of the popped cell (`cell.dist` in the
source, the record read before the overwrite) exceeds that sum. -/
def updateDistsLoop (sqrt : K → K) : ℕ → Grid (DistRec K) → List (QEntry K) →
    Option (Grid (DistRec K))
  | _, dists, [] => some dists
  | 0, _, _ :: _ => none
  | fuel + 1, dists, next :: rest =>
    match dists.getCell? next.pos with
    | none => updateDistsLoop sqrt fuel dists rest
    | some cell =>
      if infLEB cell.dist next.dist then updateDistsLoop sqrt fuel dists rest
      else
        let dists2 := dists.setCell next.pos ⟨next.pixel, some next.dist⟩
        let pushes := (gridNeighbors next.pos).filterMap fun pn =>
          match dists2.getCell? pn.1 with
          | none => none
          | some _ =>
            let d := next.dist + v2lenZ sqrt pn.2
            if infLEB cell.dist d then none else some (QEntry.mk next.pixel pn.1 d)
        updateDistsLoop sqrt fuel dists2 (rest ++ pushes)

/-- `updateDists(dists, pixel, pos)`: seed the queue with the rendered
pixel at distance 0. -/
def updateDists (sqrt : K → K) (fuel : ℕ) (dists : Grid (DistRec K)) (pixel : Pixel K)
    (pos : ℤ × ℤ) : Option (Grid (DistRec K)) :=
  updateDistsLoop sqrt fuel dists [QEntry.mk pixel pos 0]

end ProgressiveCore

/-- An exact integer square root stand-in for the concrete relaxation
run: it agrees with the real square root on every argument the run
evaluates (only 1, from the horizontal edge offsets of a one-row grid). -/
def sqrtZ (n : ℤ) : ℤ :=
  if n = 0 then 0 else if n = 1 then 1 else if n = 4 then 2 else if n = 9 then 3 else 0

/-- The first rendered pixel of the relaxation run. -/
def qPix1 : Pixel ℤ := ⟨(9, 0, 0), 1⟩

/-- The second rendered pixel of the relaxation run. -/
def qPix2 : Pixel ℤ := ⟨(0, 9, 0), 1⟩

/-- C2 failing run: on a 1x4 grid, render `(0,1)` and then `(0,2)`.  The
stale-guard pruning (`cell.dist <= d` against the popped cell's old
record instead of the neighbor's stored record) stops propagation at the
second call, so cell `(0,3)` keeps the first pixel with stored distance
2 although the rendered cell `(0,2)` — stored at distance 0 in the same
grid — is an 8-neighbor of `(0,3)` at edge length 1: the record is not
the true 8-neighbor shortest-path distance to a nearest rendered pixel. -/
theorem C2_updateDists_stale_guard :
    ((updateDists sqrtZ 50
        (Grid.create (1, 4) fun _ => DistRec.mk (Pixel.mk (0, 0, 0) 0) none)
        qPix1 (0, 1)).bind fun g1 => updateDists sqrtZ 50 g1 qPix2 (0, 2)).map
      (fun g2 => ((g2.cell (0, 2)).dist, (g2.cell (0, 3)).dist, (g2.cell (0, 3)).pixel))
      = some (some 0, some 2, qPix1)
    ∧ ((0, 3) + (0, -1) : ℤ × ℤ) = (0, 2)
    ∧ v2lenZ sqrtZ (0, -1) = 1
    ∧ ((1 : ℤ) < 2) := by
  refine ⟨by decide, by decide, by decide, by decide⟩

section ProgressiveStep

variable {K : Type} [LinearOrderedField K]

/-- `Infinity + x = Infinity`, finite sums otherwise (the score
arithmetic of `step`, where an unrendered cell scores `Infinity`). -/
def addInf (a : Option K) (b : K) : Option K :=
  match a with
  | none => none
  | some v => some (v + b)

/-- `score <= maxScore` over scores in `K ∪ {Infinity}` (`none`) and a
running maximum that starts at `-Infinity` (outer `none`). -/
def scoreLEB (s : Option K) (m : Option (Option K)) : Bool :=
  match m with
  | none => false
  | some none => true
  | some (some mv) =>
    match s with
    | none => false
    | some sv => decide (sv ≤ mv)

/-- The external `randomInt(random)(lo, hi)` helper: an integer in
`[lo, hi]` produced from one draw of the caller-supplied source,
embedded as a stream of naturals reduced into range. -/
def randomIntM (lo hi : ℕ) (v : ℕ) : ℕ :=
  if hi < lo then lo else lo + v % (hi + 1 - lo)

/-- `popMax(array, getScore, sampleCount, random)`: `none` on an empty
array; otherwise draw `sampleCount` indices, scan them keeping the first
highest-scoring one (a crash inside `getScore` — outer `none` — aborts
the scan), and remove that element.  The unreachable `maxIndex = -1`
case mirrors `splice(-1, 1)`, which removes the last element. -/
def popMaxM {A : Type} (array : List A) (dflt : A) (getScore : A → Option (Option K))
    (sampleCount : ℕ) (rng : ℕ → ℕ) (ctr : ℕ) :
    Option (Option (A × List A) × ℕ) :=
  match array with
  | [] => some (none, ctr)
  | _ :: _ =>
    let indices := (List.range sampleCount).map fun t =>
      randomIntM 0 (array.length - 1) (rng (ctr + t))
    match indices.foldlM
        (fun (acc : Option (Option K) × Option ℕ) i =>
          (getScore (array.getD i dflt)).map fun score =>
            if scoreLEB score acc.1 then acc else (some score, some i))
        ((none : Option (Option K)), (none : Option ℕ)) with
    | none => none
    | some (_, none) =>
      some (some (array.getD (array.length - 1) dflt, array.eraseIdx (array.length - 1)),
        ctr + sampleCount)
    | some (_, some i) => some (some (array.getD i dflt, array.eraseIdx i), ctr + sampleCount)

/-- `getColorDiff(pos)` inside `step`: the distance between the average
of the in-grid edge-neighbors' estimated colors and the cell's own
estimated color.  With no in-grid edge neighbor the color list is empty
and the source's `reduce` throws: `none`. -/
def getColorDiffM (sqrt : K → K) (dists : Grid (DistRec K)) (pos : ℤ × ℤ) : Option K :=
  match (gridEdges pos).filterMap fun p => (dists.getCell? p).map fun c => c.pixel.color with
  | [] => none
  | c0 :: crest =>
    let colorAvg := (1 / ((c0 :: crest).length : K)) • crest.foldl (fun s v => s + v) c0
    let center :=
      match dists.getCell? pos with
      | none => ((0 : K), (0 : K), (0 : K))
      | some c => c.pixel.color
    some (v3len sqrt (colorAvg - center))

/-- The candidate score of `step`:
`(cell distance or Infinity) + 32 * colorGradientMagnitude`. -/
def stepScore (sqrt : K → K) (dists : Grid (DistRec K)) (pos : ℤ × ℤ) : Option (Option K) :=
  (getColorDiffM sqrt dists pos).map fun colorScore =>
    addInf
      (match dists.getCell? pos with
       | none => none
       | some c => c.dist)
      (32 * colorScore)

/-- The state owned by one progressive render invocation: the estimate
grid, the visible pixel grid, the not-yet-rendered worklist and the
number of random draws consumed. -/
structure PState (K : Type) where
  dists : Grid (DistRec K)
  pixels : Grid (Pixel K)
  posArray : List (ℤ × ℤ)
  ctr : ℕ

/-- `grid.map(dists, ({pixel}, p) => grid.setCell(pixels, p, pixel))`:
copy every estimate's color into the visible grid. -/
def copyPixels (dists : Grid (DistRec K)) (pixels : Grid (Pixel K)) : Grid (Pixel K) :=
  ⟨pixels.rows, pixels.cols, fun q =>
    if 0 ≤ q.1 ∧ q.1 < (dists.rows : ℤ) ∧ 0 ≤ q.2 ∧ q.2 < (dists.cols : ℤ)
    then (dists.cell q).pixel else pixels.cell q⟩

/-- One `step()` of `renderPartialImage`: select a pixel by the sampled
approximate-max heuristic (`false` once the worklist is empty), shade it
with the multisample average, relax the estimate grid from it, and copy
the estimates into the visible grid.  An exception inside the scoring
(`getColorDiff` on a cell with no in-grid edge neighbor) is the outer
`none`. -/
def stepM (sqrt : K → K) (renderPixel : RenderPixel K) (model : Model K)
    (lightsNormalized : List (LightSource K)) (resolution : ℕ × ℕ) (pattern : MSPattern)
    (rng : ℕ → ℕ) (fuel : ℕ) (st : PState K) : Option (Bool × PState K) :=
  match popMaxM st.posArray ((0 : ℤ), (0 : ℤ)) (stepScore sqrt st.dists) 32 rng st.ctr with
  | none => none
  | some (none, ctr2) => some (false, ⟨st.dists, st.pixels, st.posArray, ctr2⟩)
  | some (some (pos, rest), ctr2) =>
    match updateDists sqrt fuel st.dists
        (avgPixel (renderSamples renderPixel model lightsNormalized resolution pattern pos))
        pos with
    | none => none
    | some dists2 => some (true, ⟨dists2, copyPixels dists2 st.pixels, rest, ctr2⟩)

/-- The state built by `renderPartialImage` before any `step()`: a
transparent pixel grid, an estimate grid of (transparent, Infinity)
records, the row-major worklist of all coordinates, and no random draws
consumed. -/
def renderProgressiveInit (resolution : ℕ × ℕ) : PState K :=
  ⟨Grid.create resolution fun _ => ⟨getTransparent, none⟩,
   Grid.create resolution fun _ => getTransparent,
   ((List.range resolution.1).map fun i =>
     (List.range resolution.2).map fun j => ((i : ℤ), (j : ℤ))).flatten,
   0⟩

end ProgressiveStep

/-- C1 failing run: at resolution 1x1 the very first `step()` — which
the claim says must return `true` (one coordinate is on the worklist) —
crashes instead: every sampled candidate's `getColorDiff` reduces an
empty array (the single cell has no in-grid edge neighbor), modelled by
the outer `none`. -/
theorem C1_first_step_crashes_on_1x1 :
    (stepM sqrtQ (orthographicRenderPixel) missModel [] (1, 1) MSPattern.one
        (fun _ => 0) 100 (renderProgressiveInit (1, 1))).isNone = true := by
  decide

end CSG
